import Mathlib

/-!
Verification of the NFZ queue-search core: a shallow embedding of
`src/lib/nfz-api.ts` (province table, API request normalization, haversine
distance, referral parsing) and `src/components/NFZSearch.tsx`
(`searchFacilities`: date sort, distance annotation, distance sort, summary).

Modelling conventions:
* JS strings are `List Char`; `String.indexOf` / `lastIndexOf` returning `-1`
  are modelled with `Option Nat` (`none` for `-1`).
* JS numbers used for ordering keys are `ℚ` (exact rational comparisons model
  the comparator arithmetic); `new Date(s).getTime()` is modelled as
  `Option Nat` (epoch value; `none` models `NaN` from a missing/unparsable
  date string).  Geometry (`Math.sin` etc.) is over `ℝ`.
* `Array.prototype.sort` is modelled as a stable insertion sort together with
  the ECMAScript `SortCompare` coercion: a comparator result of `NaN` is
  treated as `+0` (the two elements compare as equal).
-/

namespace NFZ

/-! ## JS string primitives -/

/-- Per-character model of `String.prototype.toLowerCase` for the characters
that occur in the repository's inputs: ASCII `A`–`Z` plus the uppercase
Polish letters.  Other characters are fixed points. -/
def jsToLower (c : Char) : Char :=
  if 'A' ≤ c ∧ c ≤ 'Z' then Char.ofNat (c.toNat + 32)
  else if c = 'Ą' then 'ą'
  else if c = 'Ć' then 'ć'
  else if c = 'Ę' then 'ę'
  else if c = 'Ł' then 'ł'
  else if c = 'Ń' then 'ń'
  else if c = 'Ó' then 'ó'
  else if c = 'Ś' then 'ś'
  else if c = 'Ź' then 'ź'
  else if c = 'Ż' then 'ż'
  else if c = 'Å' then 'å'
  else c

/-- The punctuation class of the regex in `parseReferral`
(`[.,\/#!$%\^&\*;:{}=\-_` backtick `~()]`); the brace and backtick characters
are written by code point. -/
def jsPunctChars : List Char :=
  ['.', ',', '/', '#', '!', '$', '%', '^', '&', '*', ';', ':',
   Char.ofNat 123, Char.ofNat 125, '=', '-', '_', Char.ofNat 96, '~', '(', ')']

/-- Membership in the punctuation class. -/
def isJsPunct (c : Char) : Bool := jsPunctChars.contains c

/-- The regex class `\s` (ECMAScript WhiteSpace and LineTerminator). -/
def isJsWs (c : Char) : Bool :=
  c = ' ' || c = Char.ofNat 9 || c = Char.ofNat 10 || c = Char.ofNat 11 ||
  c = Char.ofNat 12 || c = Char.ofNat 13 || c = Char.ofNat 160 ||
  c = Char.ofNat 0x1680 ||
  (Char.ofNat 0x2000 ≤ c && c ≤ Char.ofNat 0x200a) ||
  c = Char.ofNat 0x2028 || c = Char.ofNat 0x2029 || c = Char.ofNat 0x202f ||
  c = Char.ofNat 0x205f || c = Char.ofNat 0x3000 || c = Char.ofNat 0xfeff

/-- State machine for the global replace of `\s` runs of length at least 2 by
a single space (`.replace(/\s\x7b2,\x7d/g, " ")`).  `pending` holds a single
whitespace character whose run length is still 1 (it is kept verbatim if the
run ends); `inRun` records that the current run already had length at least 2
and the single replacement space was already emitted. -/
def collapseWsGo : Option Char → Bool → List Char → List Char
  | pending, _, [] => (match pending with | some w => [w] | none => [])
  | pending, inRun, c :: rest =>
    if isJsWs c then
      match pending with
      | some _ => ' ' :: collapseWsGo none true rest
      | none => if inRun then collapseWsGo none true rest
                else collapseWsGo (some c) false rest
    else
      match pending with
      | some w => w :: c :: collapseWsGo none false rest
      | none => c :: collapseWsGo none false rest

/-- Collapse every maximal whitespace run of length at least 2 to one space. -/
def collapseWs (l : List Char) : List Char := collapseWsGo none false l

/-- The normalization from `parseReferral`: lower-case, replace the fixed
punctuation set by spaces, collapse whitespace runs. -/
def normalizeText (t : List Char) : List Char :=
  collapseWs ((t.map jsToLower).map (fun c => if isJsPunct c then ' ' else c))

/-- First index at which `pat` occurs in the argument list (the offset is
relative to the argument).  Models `String.prototype.indexOf`, with `none`
for the JS result `-1`. -/
def idxOfAux (pat : List Char) : List Char → Option Nat
  | [] => if pat = [] then some 0 else none
  | c :: rest =>
    if pat.isPrefixOf (c :: rest) then some 0
    else (idxOfAux pat rest).map (· + 1)

/-- `t.indexOf(pat)`. -/
def jsIndexOf (t pat : List Char) : Option Nat := idxOfAux pat t

/-- `t.indexOf(pat, s)`: first occurrence at a position at least `s`. -/
def jsIndexOfFrom (t pat : List Char) (s : Nat) : Option Nat :=
  (idxOfAux pat (t.drop s)).map (· + s)

/-- `t.lastIndexOf(" ", b)`: the largest position `≤ b` holding a space,
`none` for the JS result `-1`. -/
def lastSpaceLe (t : List Char) : Nat → Option Nat
  | 0 => if t[0]? = some ' ' then some 0 else none
  | n + 1 => if t[n + 1]? = some ' ' then some (n + 1) else lastSpaceLe t n

/-- The slice of `t` from position `i` (inclusive) to `j` (exclusive). -/
def sliceList (t : List Char) (i j : Nat) : List Char := (t.drop i).take (j - i)

/-- `t.substring(s, e)` (clamps out-of-range arguments and swaps them when
`s > e`, as in JS). -/
def jsSubstring (t : List Char) (s e : Nat) : List Char :=
  sliceList t (min s e) (max s e)

/-! ## The referral parser (`parseReferral` in `src/lib/nfz-api.ts`) -/

/-- The fixed stop-word list of `parseReferral`. -/
def stopWords : List (List Char) :=
  ["i", "do", "na", "w", "z", "dla", "od", "przez"].map String.data

/-- The fixed benefit trigger list of `parseReferral`.  The second entry is
the mojibake literal that appears verbatim in the source file (the UTF-8
bytes of a Polish word decoded as Latin-1), so it can never match real
Polish text. -/
def benefitKeywords : List (List Char) :=
  ["poradnia", "oddziaÅ‚", "pracownia", "rehabilitacja"].map String.data

/-- The phrase extracted around an occurrence of trigger `kw` at position
`index` in the normalized text `n`: left boundary after the previous space
(`lastIndexOf(" ", index) + 1`), right boundary at the next space after the
trigger, with the source's `end > 0 ? end : undefined` fallback to the end of
the string. -/
def extractPhrase (n kw : List Char) (index : Nat) : List Char :=
  let start := match lastSpaceLe n index with
    | some j => j + 1
    | none => 0
  match jsIndexOfFrom n [' '] (index + kw.length) with
  | some e => if 0 < e then jsSubstring n start e else n.drop start
  | none => n.drop start

/-- The trigger loop of `parseReferral`: the first keyword of the fixed list
that occurs anywhere in `n` wins (the loop breaks). -/
def extractBenefitGo (n : List Char) : List (List Char) → List Char
  | [] => []
  | kw :: rest =>
    match jsIndexOf n kw with
    | some index => extractPhrase n kw index
    | none => extractBenefitGo n rest

/-- The benefit guess of `parseReferral`. -/
def extractBenefit (n : List Char) : List Char := extractBenefitGo n benefitKeywords

/-- Result record of `parseReferral`. -/
structure ParsedReferral where
  benefit : List Char
  keywords : List (List Char)
deriving DecidableEq

/-- `parseReferral` from `src/lib/nfz-api.ts`: normalize the text, filter the
space-split words by length and stop words, extract a benefit guess. -/
def parseReferral (text : List Char) : ParsedReferral :=
  let normalizedText := normalizeText text
  let words := normalizedText.splitOn ' '
  let keywords := words.filter (fun word => 2 < word.length && !(stopWords.contains word))
  { benefit := extractBenefit normalizedText, keywords := keywords }

/-! ## Province table (`PROVINCES` in `src/lib/nfz-api.ts`) -/

/-- The `PROVINCES` constant: code/display-name pairs, in source order. -/
def PROVINCES : List (String × String) :=
  [("01", "DOLNOŚLĄSKIE"),
   ("02", "KUJAWSKO-POMORSKIE"),
   ("03", "LUBELSKIE"),
   ("04", "LUBUSKIE"),
   ("05", "ŁÓDZKIE"),
   ("06", "MAŁOPOLSKIE"),
   ("07", "MAZOWIECKIE"),
   ("08", "OPOLSKIE"),
   ("09", "PODKARPACKIE"),
   ("10", "PODLASKIE"),
   ("11", "POMORSKIE"),
   ("12", "ŚLĄSKIE"),
   ("13", "ŚWIĘTOKRZYSKIE"),
   ("14", "WARMIŃSKO-MAZURSKIE"),
   ("15", "WIELKOPOLSKIE"),
   ("16", "ZACHODNIOPOMORSKIE")]

/-! ## The request wrapper (`NFZApiClient.request` in `src/lib/nfz-api.ts`) -/

/-- One entry of the registry error envelope (`NFZError`). -/
structure ApiError where
  errId : String
  result : String
  reason : String
  solution : String
  help : String
  code : Int
deriving DecidableEq

/-- A parsed JSON response body: either an error envelope (the `"errors" in
data` check) or a payload. -/
inductive Body (α : Type) where
  | errors (es : List ApiError) : Body α
  | payload (a : α) : Body α
deriving DecidableEq

/-- The fetch response as consumed by `request`. -/
structure HttpResponse (α : Type) where
  ok : Bool
  status : Nat
  statusText : String
  body : Body α
deriving DecidableEq

/-- The error channel of `request`: the two `throw new Error(...)` sites, and
the `TypeError` raised by `data.errors[0]` when the envelope's array is
empty. -/
inductive RequestError where
  | transport (status : Nat) (statusText : String) : RequestError
  | upstream (reason solution : String) : RequestError
  | emptyEnvelope : RequestError
deriving DecidableEq

/-- The message string each thrown error carries (the template literals of the
two `throw` sites). -/
def errorMessage : RequestError → String
  | RequestError.transport status statusText =>
      "NFZ API request failed: " ++ toString status ++ " " ++ statusText
  | RequestError.upstream reason solution =>
      "NFZ API error: " ++ reason ++ " - " ++ solution
  | RequestError.emptyEnvelope => "TypeError"

/-- `NFZApiClient.request`: reject non-ok responses, then reject error
envelopes with a normalized upstream error built from the first envelope
entry, otherwise return the payload.  The `catch` block of the source logs
and rethrows the same error, which `Except.error` models. -/
def request {α : Type} (resp : HttpResponse α) : Except RequestError α :=
  if resp.ok = false then
    Except.error (RequestError.transport resp.status resp.statusText)
  else
    match resp.body with
    | Body.errors [] => Except.error RequestError.emptyEnvelope
    | Body.errors (e :: _) => Except.error (RequestError.upstream e.reason e.solution)
    | Body.payload a => Except.ok a

/-! ## Queue records and the ranking pipeline (`searchFacilities` in
`src/components/NFZSearch.tsx`) -/

/-- A queue record as used by the ranking stage.  `date` models
`new Date(attributes.dates.date).getTime()` (`none` for `NaN`);
`distance` models the optional derived field attached by the annotation step
(absent on records coming from the client). -/
structure QueueRec where
  qid : String
  provider : String
  place : String
  address : String
  locality : String
  phone : String
  lat : ℚ
  lon : ℚ
  date : Option Nat
  distance : Option ℚ
deriving DecidableEq

/-- Stable insertion of `a` into `l` under the boolean comparator-derived
order `le` (insert before the first element `b` with `le a b`). -/
def orderedInsert {α : Type} (le : α → α → Bool) (a : α) : List α → List α
  | [] => [a]
  | b :: l => if le a b then a :: b :: l else b :: orderedInsert le a l

/-- Stable sort under `le`; models `Array.prototype.sort` (required stable
since ES2019).  For a consistent comparator every stable sort produces the
same output, so this agrees with the engine's sort there. -/
def jsStableSort {α : Type} (le : α → α → Bool) : List α → List α
  | [] => []
  | a :: l => orderedInsert le a (jsStableSort le l)

/-- The date comparator `new Date(dateA).getTime() - new Date(dateB).getTime()`
turned into a non-strict order: `le x y` iff the comparator value is not
positive.  A `NaN` comparator value (either date missing) is coerced to `+0`
by ECMAScript `SortCompare`, so both directions hold. -/
def dateLeB (x y : Option Nat) : Bool :=
  match x, y with
  | some a, some b => a ≤ b
  | _, _ => true

/-- `facilitiesFound.sort((a, b) => new Date(dateA).getTime() - new Date(dateB).getTime())`. -/
def sortByDate (rs : List QueueRec) : List QueueRec :=
  jsStableSort (fun a b => dateLeB a.date b.date) rs

/-- The effective sort key of `(a as any).distance || Infinity`: a missing
distance is `Infinity`, and — because `0` is falsy in JS — a distance of `0`
is also coerced to `Infinity`. -/
def distKey (d : Option ℚ) : WithTop ℚ :=
  match d with
  | none => (⊤ : WithTop ℚ)
  | some q => if q = 0 then (⊤ : WithTop ℚ) else (q : WithTop ℚ)

/-- The distance comparator `(a.distance || Infinity) - (b.distance || Infinity)`
turned into a non-strict order (`Infinity - Infinity` is `NaN`, coerced to
`+0`, which `⊤ ≤ ⊤` reproduces). -/
def distLeB (a b : QueueRec) : Bool := distKey a.distance ≤ distKey b.distance

/-- `facilitiesFound.sort((a, b) => distanceA - distanceB)` with the
`|| Infinity` defaults. -/
def sortByDistance (rs : List QueueRec) : List QueueRec :=
  jsStableSort distLeB rs

/-- The annotation step guarded by `if (userLocation)`: with a known origin,
map every record to a copy carrying the computed distance; with no origin the
records are left untouched.  `dist` abstracts `calculateDistance` (the
haversine, defined over `ℝ` below; the ranking theorems hold for any distance
function). -/
def annotateDistance (dist : ℚ → ℚ → ℚ → ℚ → ℚ) (userLocation : Option (ℚ × ℚ))
    (rs : List QueueRec) : List QueueRec :=
  match userLocation with
  | none => rs
  | some (ulat, ulon) =>
      rs.map (fun facility =>
        { facility with distance := some (dist ulat ulon facility.lat facility.lon) })

/-- The summary value of `searchFacilities`; `noResults` is the fixed
"Nie znaleziono placówek..." message and `found` carries the data interpolated
into the "Znaleziono ... Najbliższy termin: ..." template (`date` is the raw
value fed to `formatDate`, whose locale rendering is not modelled). -/
inductive SearchSummary where
  | noResults : SearchSummary
  | found (count : Nat) (date : Option Nat) (provider locality : String) : SearchSummary
deriving DecidableEq

/-- The result-processing part of `searchFacilities` (lines 207-260 of
`NFZSearch.tsx`): empty guard, date sort, optional distance annotation and
distance re-sort, then the summary built from the first record of whatever
order was produced last. -/
def searchFacilities (dist : ℚ → ℚ → ℚ → ℚ → ℚ) (userLocation : Option (ℚ × ℚ))
    (records : List QueueRec) : List QueueRec × Option SearchSummary :=
  if records.length = 0 then ([], some SearchSummary.noResults)
  else
    let byDate := sortByDate records
    let final :=
      match userLocation with
      | none => byDate
      | some loc => sortByDistance (annotateDistance dist (some loc) byDate)
    match final with
    | [] => (final, none)
    | f0 :: _ =>
        (final, some (SearchSummary.found final.length f0.date f0.provider f0.locality))

/-! ## Geometry (`calculateDistance` in `src/lib/utils.ts`) -/

/-- `deg2rad`. -/
noncomputable def deg2rad (deg : ℝ) : ℝ := deg * (Real.pi / 180)

/-- `Math.atan2(y, x)`. -/
noncomputable def jsAtan2 (y x : ℝ) : ℝ :=
  if 0 < x then Real.arctan (y / x)
  else if x < 0 ∧ 0 ≤ y then Real.arctan (y / x) + Real.pi
  else if x < 0 then Real.arctan (y / x) - Real.pi
  else if 0 < y then Real.pi / 2
  else if y < 0 then -(Real.pi / 2)
  else 0

/-- `Math.round` over the real-number model of JS doubles. -/
noncomputable def jsRound (x : ℝ) : ℝ := (Int.floor (x + 1 / 2) : ℝ)

/-- The intermediate `a` of the haversine formula, exactly as associated in
the source expression. -/
noncomputable def haversineA (lat1 lon1 lat2 lon2 : ℝ) : ℝ :=
  Real.sin (deg2rad (lat2 - lat1) / 2) * Real.sin (deg2rad (lat2 - lat1) / 2) +
    Real.cos (deg2rad lat1) * Real.cos (deg2rad lat2) *
      Real.sin (deg2rad (lon2 - lon1) / 2) * Real.sin (deg2rad (lon2 - lon1) / 2)

/-- `calculateDistance`: haversine on radius 6371 km, rounded to one
decimal. -/
noncomputable def calculateDistance (lat1 lon1 lat2 lon2 : ℝ) : ℝ :=
  let a := haversineA lat1 lon1 lat2 lon2
  let c := 2 * jsAtan2 (Real.sqrt a) (Real.sqrt (1 - a))
  let distance := 6371 * c
  jsRound (distance * 10) / 10

/-! ## Property definitions and concrete fixtures -/

/-- `p` is a whitespace-delimited token of `n`: a nonempty slice bounded on
the left by the text start or a space, on the right by the text end or a
space, with no space inside. -/
def SpaceToken (n p : List Char) : Prop :=
  ∃ i j, i < j ∧ j ≤ n.length ∧ p = sliceList n i j ∧
    (i = 0 ∨ n[i - 1]? = some ' ') ∧
    (j = n.length ∨ n[j]? = some ' ') ∧
    ∀ k, i ≤ k → k < j → ¬ n[k]? = some ' '

/-- The ordering property claimed for `sortByDate`: every record with a
missing date is placed after every record with a present date. -/
def missingDatesLast (l : List QueueRec) : Prop :=
  ∀ i j : Fin l.length,
    (l.get i).date = none → (l.get j).date ≠ none → (j : Nat) < (i : Nat)

instance (l : List QueueRec) : Decidable (missingDatesLast l) := by
  unfold missingDatesLast
  infer_instance

/-- Fixture builder for concrete queue records. -/
def mkRec (qid provider locality : String) (lat : ℚ) (date : Option Nat)
    (distance : Option ℚ) : QueueRec :=
  { qid := qid, provider := provider, place := "", address := "",
    locality := locality, phone := "", lat := lat, lon := 0,
    date := date, distance := distance }

/-- A record whose date string did not parse (`getTime()` gave `NaN`). -/
def recNoDate : QueueRec := mkRec "m" "ProviderM" "MiastoM" 0 none none

/-- A record with a present date. -/
def recFeb : QueueRec := mkRec "f" "ProviderF" "MiastoF" 0 (some 100) none

/-- An annotated record at distance 0 km (origin at the facility). -/
def recZeroKm : QueueRec := mkRec "z" "ProviderZ" "MiastoZ" 0 (some 100) (some 0)

/-- An annotated record at distance 5 km. -/
def recFiveKm : QueueRec := mkRec "v" "ProviderV" "MiastoV" 5 (some 200) (some 5)

/-- Unannotated record: earliest date, larger distance-to-be. -/
def recD1 : QueueRec := mkRec "d1" "P1" "L1" 5 (some 100) none

/-- Unannotated record: later date, smaller distance-to-be. -/
def recD2 : QueueRec := mkRec "d2" "P2" "L2" 2 (some 200) none

/-- A concrete distance function for fixtures (projects the facility
latitude; the ranking stage is proved for every distance function). -/
def dist0 : ℚ → ℚ → ℚ → ℚ → ℚ := fun _ _ la _ => la

/-- The envelope entry of the upstream "invalid province" rejection. -/
def errInvalidProvince : ApiError :=
  { errId := "1", result := "error", reason := "invalid province",
    solution := "podaj kod województwa od 01 do 16", help := "", code := 4 }

/-- An ok-status response whose body is the "invalid province" envelope. -/
def respInvalidProvince : HttpResponse Nat :=
  { ok := true, status := 200, statusText := "OK",
    body := Body.errors [errInvalidProvince] }

/-! ## Sorting infrastructure lemmas -/

theorem orderedInsert_perm {α : Type} (le : α → α → Bool) (a : α) (l : List α) :
    (orderedInsert le a l).Perm (a :: l) := by
  induction l with
  | nil => exact List.Perm.refl _
  | cons b l ih =>
    by_cases h : le a b = true
    · simp [orderedInsert, h]
    · simp only [orderedInsert, if_neg h]
      exact (List.Perm.cons b ih).trans (List.Perm.swap a b l)

theorem jsStableSort_perm {α : Type} (le : α → α → Bool) (l : List α) :
    (jsStableSort le l).Perm l := by
  induction l with
  | nil => exact List.Perm.refl _
  | cons a l ih => exact (orderedInsert_perm le a _).trans (List.Perm.cons a ih)

theorem mem_orderedInsert {α : Type} (le : α → α → Bool) (a x : α) (l : List α) :
    x ∈ orderedInsert le a l ↔ x = a ∨ x ∈ l := by
  rw [(orderedInsert_perm le a l).mem_iff]
  exact List.mem_cons

theorem orderedInsert_pairwise {α : Type} (le : α → α → Bool) (P : α → Prop)
    (htot : ∀ x y, P x → P y → le x y = true ∨ le y x = true)
    (htrans : ∀ x y z, P x → P y → P z → le x y = true → le y z = true → le x z = true)
    (a : α) (l : List α) (ha : P a) (hl : ∀ x ∈ l, P x)
    (hs : l.Pairwise (fun x y => le x y = true)) :
    (orderedInsert le a l).Pairwise (fun x y => le x y = true) := by
  induction l with
  | nil => simp [orderedInsert]
  | cons b l ih =>
    rcases List.pairwise_cons.mp hs with ⟨hb, hsl⟩
    by_cases h : le a b = true
    · simp only [orderedInsert, if_pos h]
      refine List.pairwise_cons.mpr ⟨?_, hs⟩
      intro y hy
      rcases List.mem_cons.mp hy with rfl | hy
      · exact h
      · exact htrans a b y ha (hl b (by simp)) (hl y (by simp [hy])) h (hb y hy)
    · have hba : le b a = true := by
        rcases htot a b ha (hl b (by simp)) with h' | h'
        · exact absurd h' h
        · exact h'
      simp only [orderedInsert, if_neg h]
      refine List.pairwise_cons.mpr ⟨?_, ?_⟩
      · intro y hy
        rcases (mem_orderedInsert le a y l).mp hy with rfl | hy
        · exact hba
        · exact hb y hy
      · exact ih (fun x hx => hl x (by simp [hx])) hsl

theorem jsStableSort_pairwise {α : Type} (le : α → α → Bool) (P : α → Prop)
    (htot : ∀ x y, P x → P y → le x y = true ∨ le y x = true)
    (htrans : ∀ x y z, P x → P y → P z → le x y = true → le y z = true → le x z = true)
    (l : List α) (hl : ∀ x ∈ l, P x) :
    (jsStableSort le l).Pairwise (fun x y => le x y = true) := by
  induction l with
  | nil => simp [jsStableSort]
  | cons a l ih =>
    exact orderedInsert_pairwise le P htot htrans a _ (hl a (by simp))
      (fun x hx => hl x (by simp [(jsStableSort_perm le l).mem_iff.mp hx]))
      (ih (fun x hx => hl x (by simp [hx])))

/-! ## C9: the province table -/

/-- C9: the province table holds exactly 16 pairwise-distinct codes, every
code is a two-character digit string, and every display name is non-empty. -/
theorem c9_province_table :
    PROVINCES.length = 16 ∧ (PROVINCES.map Prod.fst).Nodup ∧
      ∀ p ∈ PROVINCES, p.1.length = 2 ∧ (∀ c ∈ p.1.data, c.isDigit = true) ∧ p.2 ≠ "" := by
  decide

/-- Witness for C9 at the first table entry. -/
theorem c9_witness :
    ("01", "DOLNOŚLĄSKIE") ∈ PROVINCES ∧
      ("01" : String).length = 2 ∧
      (∀ c ∈ ("01" : String).data, c.isDigit = true) ∧
      ("DOLNOŚLĄSKIE" : String) ≠ "" :=
  ⟨by decide, c9_province_table.2.2 ("01", "DOLNOŚLĄSKIE") (by decide)⟩

/-! ## C6: normalization of the upstream error envelope -/

/-- C6: an ok response carrying an error envelope whose first entry has code 4
and reason "invalid province" makes `request` fail with the normalized
upstream error carrying that reason (not with the generic transport error),
and the error is propagated to the caller. -/
theorem c6_upstream_error {α : Type} (resp : HttpResponse α) (e : ApiError)
    (es : List ApiError) (hok : resp.ok = true)
    (hbody : resp.body = Body.errors (e :: es))
    (hreason : e.reason = "invalid province") (_hcode : e.code = 4) :
    request resp = Except.error (RequestError.upstream "invalid province" e.solution) ∧
      (∀ st stext, request resp ≠ Except.error (RequestError.transport st stext)) ∧
      errorMessage (RequestError.upstream "invalid province" e.solution) =
        "NFZ API error: invalid province - " ++ e.solution := by
  have hreq : request resp = Except.error (RequestError.upstream e.reason e.solution) := by
    unfold request
    rw [hok, hbody]
    simp
  refine ⟨?_, ?_, ?_⟩
  · rw [hreq, hreason]
  · intro st stext
    rw [hreq, hreason]
    simp
  · rfl

/-- Witness for C6 at a concrete envelope response. -/
theorem c6_witness :
    (respInvalidProvince.ok = true ∧
      respInvalidProvince.body = Body.errors [errInvalidProvince] ∧
      errInvalidProvince.reason = "invalid province" ∧ errInvalidProvince.code = 4) ∧
      request respInvalidProvince =
        Except.error
          (RequestError.upstream "invalid province" errInvalidProvince.solution) :=
  ⟨⟨rfl, rfl, rfl, rfl⟩,
    (c6_upstream_error respInvalidProvince errInvalidProvince [] rfl rfl rfl rfl).1⟩

/-! ## C7: no origin, no distance -/

/-- C7: with no origin the annotation step returns the records unchanged, and
(the records coming from the client carry no distance) no distance field is
set on any output record. -/
theorem c7_no_origin_unchanged (dist : ℚ → ℚ → ℚ → ℚ → ℚ) (rs : List QueueRec)
    (h : ∀ r ∈ rs, r.distance = none) :
    annotateDistance dist none rs = rs ∧
      ∀ r ∈ annotateDistance dist none rs, r.distance = none :=
  ⟨rfl, fun r hr => h r hr⟩

/-- Witness for C7 at a concrete record list. -/
theorem c7_witness :
    (∀ r ∈ [recD1, recD2], r.distance = none) ∧
      (annotateDistance dist0 none [recD1, recD2] = [recD1, recD2] ∧
        ∀ r ∈ annotateDistance dist0 none [recD1, recD2], r.distance = none) :=
  ⟨by decide, c7_no_origin_unchanged dist0 [recD1, recD2] (by decide)⟩

/-! ## C4: the falsy-zero distance bug -/

/-- C4: failing input.  The comparator default `(distance || Infinity)`
coerces the falsy distance `0` to `Infinity`, so the 0 km record sorts after
the 5 km record instead of ranking first. -/
theorem c4_zero_distance_sorts_last :
    sortByDistance [recZeroKm, recFiveKm] = [recFiveKm, recZeroKm] ∧
      recZeroKm.distance = some 0 ∧ recFiveKm.distance = some 5 := by
  decide

/-! ## C3: the date sort and missing dates -/

/-- C3 counterexample: a missing-date record compares equal to every record
(the NaN comparator value is coerced to +0), so the stable sort leaves it in
front of a dated record — it is not placed after all present-date records. -/
theorem c3_counterexample :
    sortByDate [recNoDate, recFeb] = [recNoDate, recFeb] ∧
      recNoDate.date = none ∧ recFeb.date = some 100 ∧
      ¬ missingDatesLast (sortByDate [recNoDate, recFeb]) := by
  decide

/-- C3 (amended): the date sort never drops a record (its output is a
permutation of its input), and whenever every record's date is present the
output ascends by date. -/
theorem c3_sortByDate_perm_sorted (rs : List QueueRec) :
    (sortByDate rs).Perm rs ∧
      ((∀ r ∈ rs, r.date.isSome = true) →
        (sortByDate rs).Pairwise
          (fun a b => ∃ x y, a.date = some x ∧ b.date = some y ∧ x ≤ y)) := by
  constructor
  · exact jsStableSort_perm _ rs
  · intro hall
    have hpw : (sortByDate rs).Pairwise
        (fun a b => (fun a b => dateLeB a.date b.date) a b = true) := by
      apply jsStableSort_pairwise (fun a b => dateLeB a.date b.date)
        (fun r => r.date.isSome = true) ?_ ?_ rs hall
      · intro x y hx hy
        rcases Option.isSome_iff_exists.mp hx with ⟨a, hxa⟩
        rcases Option.isSome_iff_exists.mp hy with ⟨b, hyb⟩
        rcases Nat.le_total a b with h | h
        · left
          simp [dateLeB, hxa, hyb, h]
        · right
          simp [dateLeB, hxa, hyb, h]
      · intro x y z hx hy hz hxy hyz
        rcases Option.isSome_iff_exists.mp hx with ⟨a, hxa⟩
        rcases Option.isSome_iff_exists.mp hy with ⟨b, hyb⟩
        rcases Option.isSome_iff_exists.mp hz with ⟨c, hzc⟩
        have hxy' : dateLeB x.date y.date = true := hxy
        have hyz' : dateLeB y.date z.date = true := hyz
        show dateLeB x.date z.date = true
        rw [hxa, hyb] at hxy'
        rw [hyb, hzc] at hyz'
        rw [hxa, hzc]
        simp only [dateLeB, decide_eq_true_eq] at hxy' hyz' ⊢
        omega
    refine List.Pairwise.imp_of_mem ?_ hpw
    intro a b hma hmb hab
    have ha : a.date.isSome = true :=
      hall a ((jsStableSort_perm _ rs).mem_iff.mp hma)
    have hb : b.date.isSome = true :=
      hall b ((jsStableSort_perm _ rs).mem_iff.mp hmb)
    rcases Option.isSome_iff_exists.mp ha with ⟨x, hx⟩
    rcases Option.isSome_iff_exists.mp hb with ⟨y, hy⟩
    refine ⟨x, y, hx, hy, ?_⟩
    have hab' : dateLeB a.date b.date = true := hab
    rw [hx, hy] at hab'
    simpa [dateLeB] using hab'

/-- Witness for C3 at a concrete all-dates-present list. -/
theorem c3_witness :
    (∀ r ∈ [recFeb, recD2], r.date.isSome = true) ∧
      (sortByDate [recFeb, recD2]).Perm [recFeb, recD2] ∧
      (sortByDate [recFeb, recD2]).Pairwise
        (fun a b => ∃ x y, a.date = some x ∧ b.date = some y ∧ x ≤ y) :=
  ⟨by decide, (c3_sortByDate_perm_sorted [recFeb, recD2]).1,
    (c3_sortByDate_perm_sorted [recFeb, recD2]).2 (by decide)⟩

/-! ## C1, C2, C5: counterexamples -/

/-- C1 counterexample: with an origin known, the summary is built from the
head of the distance-sorted list; here that record's date is 200 while a
presented record has the strictly earlier date 100, so the summary does not
report the earliest date across all results. -/
theorem c1_counterexample :
    (searchFacilities dist0 (some (0, 0)) [recD1, recD2]).2 =
      some (SearchSummary.found 2 (some 200) "P2" "L2") ∧
      (searchFacilities dist0 (some (0, 0)) [recD1, recD2]).1.map QueueRec.date =
        [some 200, some 100] ∧
      (100 : Nat) < 200 := by
  decide

/-- C2 counterexample: on the spec's example referral the benefit guess is
empty (the trigger "poradnia" does not occur in the inflected phrase), so it
is not a non-empty string containing "poradni kardiologicznej". -/
theorem c2_counterexample :
    (parseReferral "Proszę o skierowanie do poradni kardiologicznej".data).benefit = [] ∧
      ¬ ("poradni kardiologicznej".data <:+:
        (parseReferral "Proszę o skierowanie do poradni kardiologicznej".data).benefit) := by
  decide

/-- C2 (amended): on the example referral the analyzer returns an empty
benefit guess together with exactly the four keywords, each at least three
characters long and outside the stop-word list. -/
theorem c2_analyze_example :
    parseReferral "Proszę o skierowanie do poradni kardiologicznej".data =
      { benefit := [],
        keywords := ["proszę".data, "skierowanie".data, "poradni".data,
          "kardiologicznej".data] } ∧
      (["proszę".data, "skierowanie".data, "poradni".data, "kardiologicznej".data].all
        (fun w => 2 < w.length && !(stopWords.contains w))) = true := by
  decide

/-- C5 counterexample: in "rehabilitacja poradnia" the trigger encountered
first in text order is "rehabilitacja" (position 0), yet the extracted phrase
is "poradnia" (position 14), because the loop scans triggers in the fixed
list order. -/
theorem c5_counterexample :
    (parseReferral "rehabilitacja poradnia".data).benefit = "poradnia".data ∧
      jsIndexOf (normalizeText "rehabilitacja poradnia".data) "rehabilitacja".data =
        some 0 ∧
      jsIndexOf (normalizeText "rehabilitacja poradnia".data) "poradnia".data =
        some 14 ∧
      "poradnia".data ≠ "rehabilitacja".data := by
  decide

/-! ## C1: pipeline order and summary with a known origin -/

theorem searchFacilities_cons (dist : ℚ → ℚ → ℚ → ℚ → ℚ) (ulat ulon : ℚ)
    (records rest : List QueueRec) (f0 : QueueRec)
    (hne : ¬ records.length = 0)
    (hcons : sortByDistance (annotateDistance dist (some (ulat, ulon)) (sortByDate records))
      = f0 :: rest) :
    searchFacilities dist (some (ulat, ulon)) records =
      (f0 :: rest,
        some (SearchSummary.found (f0 :: rest).length f0.date f0.provider f0.locality)) := by
  unfold searchFacilities
  rw [if_neg hne]
  simp only [hcons]

theorem distPhase_pairwise (dist : ℚ → ℚ → ℚ → ℚ → ℚ) (ulat ulon : ℚ)
    (rs : List QueueRec) (hz : ∀ r ∈ rs, dist ulat ulon r.lat r.lon ≠ 0) :
    (sortByDistance (annotateDistance dist (some (ulat, ulon)) rs)).Pairwise
      (fun a b => ∃ da db, a.distance = some da ∧ b.distance = some db ∧ da ≤ db) := by
  have hP : ∀ x ∈ annotateDistance dist (some (ulat, ulon)) rs,
      ∃ d, x.distance = some d ∧ d ≠ 0 := by
    intro x hx
    rcases List.mem_map.mp hx with ⟨r, hr, rfl⟩
    exact ⟨dist ulat ulon r.lat r.lon, rfl, hz r hr⟩
  have htot : ∀ x y : QueueRec,
      (∃ d, x.distance = some d ∧ d ≠ 0) → (∃ d, y.distance = some d ∧ d ≠ 0) →
      distLeB x y = true ∨ distLeB y x = true := by
    intro x y _ _
    rcases le_total (distKey x.distance) (distKey y.distance) with h | h
    · left
      simpa [distLeB] using h
    · right
      simpa [distLeB] using h
  have htrans : ∀ x y z : QueueRec,
      (∃ d, x.distance = some d ∧ d ≠ 0) → (∃ d, y.distance = some d ∧ d ≠ 0) →
      (∃ d, z.distance = some d ∧ d ≠ 0) →
      distLeB x y = true → distLeB y z = true → distLeB x z = true := by
    intro x y z _ _ _ hxy hyz
    simp only [distLeB, decide_eq_true_eq] at hxy hyz ⊢
    exact le_trans hxy hyz
  have hpw : (sortByDistance (annotateDistance dist (some (ulat, ulon)) rs)).Pairwise
      (fun a b => distLeB a b = true) :=
    jsStableSort_pairwise distLeB (fun x => ∃ d, x.distance = some d ∧ d ≠ 0)
      htot htrans _ hP
  refine List.Pairwise.imp_of_mem ?_ hpw
  intro a b hma hmb hab
  rcases hP a ((jsStableSort_perm _ _).mem_iff.mp hma) with ⟨da, hda, hda0⟩
  rcases hP b ((jsStableSort_perm _ _).mem_iff.mp hmb) with ⟨db, hdb, hdb0⟩
  refine ⟨da, db, hda, hdb, ?_⟩
  simp only [distLeB, decide_eq_true_eq] at hab
  rw [hda, hdb] at hab
  simpa [distKey, hda0, hdb0, WithTop.coe_le_coe] using hab

/-- C1 (amended): with a known origin and every computed distance nonzero,
the pipeline presents the records in ascending order of the attached
distance, and the summary reports the total count together with the date,
provider and locality of the record ranked first by distance — a record of
minimal distance, whose own date is the one shown. -/
theorem c1_distance_order_and_summary (dist : ℚ → ℚ → ℚ → ℚ → ℚ) (ulat ulon : ℚ)
    (records : List QueueRec) (hne : records ≠ [])
    (hz : ∀ r ∈ records, dist ulat ulon r.lat r.lon ≠ 0) :
    ∃ f0 rest,
      (searchFacilities dist (some (ulat, ulon)) records).1 = f0 :: rest ∧
      (searchFacilities dist (some (ulat, ulon)) records).2 =
        some (SearchSummary.found records.length f0.date f0.provider f0.locality) ∧
      (f0 :: rest).Pairwise
        (fun a b => ∃ da db, a.distance = some da ∧ b.distance = some db ∧ da ≤ db) ∧
      ∀ r ∈ records, ∃ d0, f0.distance = some d0 ∧ d0 ≤ dist ulat ulon r.lat r.lon := by
  have hlen : ¬ records.length = 0 := fun h => hne (List.length_eq_zero.mp h)
  have hpermBD : (sortByDate records).Perm records := jsStableSort_perm _ records
  have hzBD : ∀ r ∈ sortByDate records, dist ulat ulon r.lat r.lon ≠ 0 :=
    fun r hr => hz r (hpermBD.mem_iff.mp hr)
  have hpermF : (sortByDistance (annotateDistance dist (some (ulat, ulon))
        (sortByDate records))).Perm
      (annotateDistance dist (some (ulat, ulon)) (sortByDate records)) :=
    jsStableSort_perm _ _
  have hannLen : (annotateDistance dist (some (ulat, ulon)) (sortByDate records)).length
      = records.length := by
    show ((sortByDate records).map _).length = records.length
    rw [List.length_map, hpermBD.length_eq]
  have hlenF : (sortByDistance (annotateDistance dist (some (ulat, ulon))
      (sortByDate records))).length = records.length := by
    rw [hpermF.length_eq, hannLen]
  have hfinalNe : sortByDistance (annotateDistance dist (some (ulat, ulon))
      (sortByDate records)) ≠ [] := by
    intro h0
    rw [h0] at hlenF
    exact hlen hlenF.symm
  obtain ⟨f0, rest, hcons⟩ := List.exists_cons_of_ne_nil hfinalNe
  have hout := searchFacilities_cons dist ulat ulon records rest f0 hlen hcons
  have hpw := distPhase_pairwise dist ulat ulon (sortByDate records) hzBD
  rw [hcons] at hpw
  have hmem : ∀ r ∈ records,
      ({ r with distance := some (dist ulat ulon r.lat r.lon) } : QueueRec)
        ∈ f0 :: rest := by
    intro r hr
    have hr' : r ∈ sortByDate records := hpermBD.mem_iff.mpr hr
    have hmm : ({ r with distance := some (dist ulat ulon r.lat r.lon) } : QueueRec) ∈
        annotateDistance dist (some (ulat, ulon)) (sortByDate records) :=
      List.mem_map.mpr ⟨r, hr', rfl⟩
    rw [← hcons]
    exact hpermF.mem_iff.mpr hmm
  have hf0 : ∃ d, f0.distance = some d ∧ d ≠ 0 := by
    have hf0fin : f0 ∈ sortByDistance (annotateDistance dist (some (ulat, ulon))
        (sortByDate records)) := by
      rw [hcons]
      exact List.mem_cons_self f0 rest
    rcases List.mem_map.mp (hpermF.mem_iff.mp hf0fin) with ⟨r0, hr0, hr0eq⟩
    refine ⟨dist ulat ulon r0.lat r0.lon, ?_, hzBD r0 hr0⟩
    rw [← hr0eq]
  refine ⟨f0, rest, ?_, ?_, hpw, ?_⟩
  · rw [hout]
  · rw [hout]
    have hlc : (f0 :: rest).length = records.length := by
      rw [← hcons]
      exact hlenF
    rw [hlc]
  · intro r hr
    rcases hf0 with ⟨d0, hd0, _⟩
    rcases List.mem_cons.mp (hmem r hr) with heq | hmr
    · refine ⟨d0, hd0, ?_⟩
      have hf0d : f0.distance = some (dist ulat ulon r.lat r.lon) := by
        rw [← heq]
      rw [hf0d] at hd0
      exact le_of_eq (Option.some.inj hd0).symm
    · have hrel := (List.pairwise_cons.mp hpw).1 _ hmr
      rcases hrel with ⟨da, db, hda, hdb, hle⟩
      have hdb2 : dist ulat ulon r.lat r.lon = db := Option.some.inj hdb
      refine ⟨da, hda, ?_⟩
      rw [hdb2]
      exact hle

/-- Witness for C1 at a concrete origin and record pair. -/
theorem c1_witness :
    (([recD1, recD2] : List QueueRec) ≠ [] ∧
        ∀ r ∈ [recD1, recD2], dist0 0 0 r.lat r.lon ≠ 0) ∧
      ∃ f0 rest,
        (searchFacilities dist0 (some (0, 0)) [recD1, recD2]).1 = f0 :: rest ∧
        (searchFacilities dist0 (some (0, 0)) [recD1, recD2]).2 =
          some (SearchSummary.found ([recD1, recD2] : List QueueRec).length f0.date
            f0.provider f0.locality) ∧
        (f0 :: rest).Pairwise
          (fun a b => ∃ da db, a.distance = some da ∧ b.distance = some db ∧ da ≤ db) ∧
        ∀ r ∈ [recD1, recD2], ∃ d0, f0.distance = some d0 ∧ d0 ≤ dist0 0 0 r.lat r.lon :=
  ⟨⟨by decide, by decide⟩,
    c1_distance_order_and_summary dist0 0 0 [recD1, recD2] (by decide) (by decide)⟩

/-! ## C8: symmetry of the haversine distance -/

theorem haversineA_symm (lat1 lon1 lat2 lon2 : ℝ) :
    haversineA lat1 lon1 lat2 lon2 = haversineA lat2 lon2 lat1 lon1 := by
  unfold haversineA
  have e1 : deg2rad (lat1 - lat2) = -deg2rad (lat2 - lat1) := by
    unfold deg2rad
    ring
  have e2 : deg2rad (lon1 - lon2) = -deg2rad (lon2 - lon1) := by
    unfold deg2rad
    ring
  rw [e1, e2, neg_div, neg_div, Real.sin_neg, Real.sin_neg]
  ring

/-- C8: `calculateDistance` is symmetric in its two coordinate pairs. -/
theorem c8_calculateDistance_symm (lat1 lon1 lat2 lon2 : ℝ) :
    calculateDistance lat1 lon1 lat2 lon2 = calculateDistance lat2 lon2 lat1 lon1 := by
  unfold calculateDistance
  rw [haversineA_symm lat1 lon1 lat2 lon2]

/-- Supporting fact for C4's failing input: the haversine distance from a
point to itself is exactly 0, so a 0 km record occurs whenever the origin
coincides with a facility coordinate. -/
theorem calculateDistance_self (lat lon : ℝ) :
    calculateDistance lat lon lat lon = 0 := by
  have ha : haversineA lat lon lat lon = 0 := by
    unfold haversineA
    simp [deg2rad]
  unfold calculateDistance
  rw [ha]
  show jsRound (6371 * (2 * jsAtan2 (Real.sqrt 0) (Real.sqrt (1 - 0))) * 10) / 10 = 0
  rw [Real.sqrt_zero]
  have h1 : (1 : ℝ) - 0 = 1 := by norm_num
  rw [h1, Real.sqrt_one]
  have hatan : jsAtan2 0 1 = 0 := by
    unfold jsAtan2
    rw [if_pos (by norm_num : (0:ℝ) < 1)]
    simp [Real.arctan_zero]
  rw [hatan]
  unfold jsRound
  norm_num

/-! ## String-search lemmas for the referral parser -/

theorem idxOfAux_starts (pat t : List Char) (j : Nat)
    (h : idxOfAux pat t = some j) : pat.isPrefixOf (t.drop j) = true := by
  induction t generalizing j with
  | nil =>
    unfold idxOfAux at h
    by_cases hp : pat = []
    · rw [if_pos hp] at h
      cases h
      rw [hp]
      rfl
    · rw [if_neg hp] at h
      cases h
  | cons c rest ih =>
    unfold idxOfAux at h
    by_cases hp : pat.isPrefixOf (c :: rest) = true
    · rw [if_pos hp] at h
      cases h
      simpa using hp
    · rw [if_neg hp] at h
      rcases Option.map_eq_some'.mp h with ⟨a, ha, rfl⟩
      rw [List.drop_succ_cons]
      exact ih a ha

theorem idxOfAux_min (pat t : List Char) (j : Nat)
    (h : idxOfAux pat t = some j) :
    ∀ k, k < j → pat.isPrefixOf (t.drop k) = false := by
  induction t generalizing j with
  | nil =>
    intro k hk
    unfold idxOfAux at h
    by_cases hp : pat = []
    · rw [if_pos hp] at h
      cases h
      omega
    · rw [if_neg hp] at h
      cases h
  | cons c rest ih =>
    intro k hk
    unfold idxOfAux at h
    by_cases hp : pat.isPrefixOf (c :: rest) = true
    · rw [if_pos hp] at h
      cases h
      omega
    · rw [if_neg hp] at h
      rcases Option.map_eq_some'.mp h with ⟨a, ha, rfl⟩
      cases k with
      | zero =>
        rw [List.drop_zero]
        exact Bool.eq_false_iff.mpr hp
      | succ k' =>
        rw [List.drop_succ_cons]
        exact ih a ha k' (by omega)

theorem idxOfAux_none (pat t : List Char)
    (h : idxOfAux pat t = none) :
    ∀ k, pat.isPrefixOf (t.drop k) = false := by
  induction t with
  | nil =>
    intro k
    unfold idxOfAux at h
    by_cases hp : pat = []
    · rw [if_pos hp] at h
      cases h
    · rw [if_neg hp] at h
      rw [List.drop_nil]
      cases pat with
      | nil => exact absurd rfl hp
      | cons p ps => rfl
  | cons c rest ih =>
    intro k
    unfold idxOfAux at h
    by_cases hp : pat.isPrefixOf (c :: rest) = true
    · rw [if_pos hp] at h
      cases h
    · rw [if_neg hp] at h
      have h' : idxOfAux pat rest = none := by
        cases ho : idxOfAux pat rest with
        | none => rfl
        | some a =>
          rw [ho] at h
          cases h
      cases k with
      | zero =>
        rw [List.drop_zero]
        exact Bool.eq_false_iff.mpr hp
      | succ k' =>
        rw [List.drop_succ_cons]
        exact ih h' k'

theorem lastSpaceLe_mem (t : List Char) (b j : Nat)
    (h : lastSpaceLe t b = some j) : t[j]? = some ' ' ∧ j ≤ b := by
  induction b with
  | zero =>
    unfold lastSpaceLe at h
    by_cases hc : t[0]? = some ' '
    · rw [if_pos hc] at h
      cases h
      exact ⟨hc, le_refl 0⟩
    · rw [if_neg hc] at h
      cases h
  | succ n ih =>
    unfold lastSpaceLe at h
    by_cases hc : t[n + 1]? = some ' '
    · rw [if_pos hc] at h
      cases h
      exact ⟨hc, le_refl _⟩
    · rw [if_neg hc] at h
      rcases ih h with ⟨h1, h2⟩
      exact ⟨h1, by omega⟩

theorem lastSpaceLe_max (t : List Char) (b j : Nat)
    (h : lastSpaceLe t b = some j) :
    ∀ k, j < k → k ≤ b → ¬ t[k]? = some ' ' := by
  induction b with
  | zero =>
    intro k hk1 hk2 _
    omega
  | succ n ih =>
    intro k hk1 hk2
    unfold lastSpaceLe at h
    by_cases hc : t[n + 1]? = some ' '
    · rw [if_pos hc] at h
      cases h
      intro _
      omega
    · rw [if_neg hc] at h
      by_cases hk : k ≤ n
      · exact ih h k hk1 hk
      · have hke : k = n + 1 := by omega
        rw [hke]
        exact hc

theorem lastSpaceLe_none (t : List Char) (b : Nat)
    (h : lastSpaceLe t b = none) :
    ∀ k, k ≤ b → ¬ t[k]? = some ' ' := by
  induction b with
  | zero =>
    intro k hk
    unfold lastSpaceLe at h
    by_cases hc : t[0]? = some ' '
    · rw [if_pos hc] at h
      cases h
    · rw [if_neg hc] at h
      have hke : k = 0 := by omega
      rw [hke]
      exact hc
  | succ n ih =>
    intro k hk
    unfold lastSpaceLe at h
    by_cases hc : t[n + 1]? = some ' '
    · rw [if_pos hc] at h
      cases h
    · rw [if_neg hc] at h
      by_cases hk' : k ≤ n
      · exact ih h k hk'
      · have hke : k = n + 1 := by omega
        rw [hke]
        exact hc

theorem startsLength (pat l : List Char) (h : pat.isPrefixOf l = true) :
    pat.length ≤ l.length := by
  have h' : pat <+: l := by simpa using h
  exact h'.length_le

theorem startsGetEq (pat l : List Char) (h : pat.isPrefixOf l = true) :
    ∀ m, m < pat.length → l[m]? = pat[m]? := by
  have h' : pat <+: l := by simpa using h
  rcases h' with ⟨u, rfl⟩
  intro m hm
  rw [List.getElem?_append_left hm]

theorem singletonStarts (l : List Char) :
    ([' '].isPrefixOf l = true) ↔ l[0]? = some ' ' := by
  cases l with
  | nil => decide
  | cons c cs =>
    rw [List.isPrefixOf_cons₂, List.isPrefixOf_nil_left, List.getElem?_cons_zero,
      Bool.and_true, beq_iff_eq]
    exact ⟨fun h => by rw [← h], fun h => (Option.some.inj h).symm⟩

theorem spaceFrom_mem (t : List Char) (s e : Nat)
    (h : jsIndexOfFrom t [' '] s = some e) :
    s ≤ e ∧ t[e]? = some ' ' ∧ ∀ k, s ≤ k → k < e → ¬ t[k]? = some ' ' := by
  unfold jsIndexOfFrom at h
  rcases Option.map_eq_some'.mp h with ⟨e0, he0, rfl⟩
  refine ⟨by omega, ?_, ?_⟩
  · have hst := idxOfAux_starts [' '] (t.drop s) e0 he0
    have h0 : ((t.drop s).drop e0)[0]? = some ' ' := (singletonStarts _).mp hst
    rw [List.getElem?_drop, List.getElem?_drop] at h0
    have he : s + (e0 + 0) = e0 + s := by omega
    rw [he] at h0
    exact h0
  · intro k hk1 hk2 hks
    have hk0 : k - s < e0 := by omega
    have hmin := idxOfAux_min [' '] (t.drop s) e0 he0 (k - s) hk0
    have hstart : [' '].isPrefixOf ((t.drop s).drop (k - s)) = true := by
      apply (singletonStarts _).mpr
      rw [List.getElem?_drop, List.getElem?_drop]
      have he : s + (k - s + 0) = k := by omega
      rw [he]
      exact hks
    rw [hmin] at hstart
    cases hstart

theorem spaceFrom_none (t : List Char) (s : Nat)
    (h : jsIndexOfFrom t [' '] s = none) :
    ∀ k, s ≤ k → ¬ t[k]? = some ' ' := by
  unfold jsIndexOfFrom at h
  have h' : idxOfAux [' '] (t.drop s) = none := by
    cases ho : idxOfAux [' '] (t.drop s) with
    | none => rfl
    | some a =>
      rw [ho] at h
      cases h
  intro k hk hks
  have hno := idxOfAux_none [' '] (t.drop s) h' (k - s)
  have hstart : [' '].isPrefixOf ((t.drop s).drop (k - s)) = true := by
    apply (singletonStarts _).mpr
    rw [List.getElem?_drop, List.getElem?_drop]
    have he : s + (k - s + 0) = k := by omega
    rw [he]
    exact hks
  rw [hno] at hstart
  cases hstart

theorem sliceToEnd (n : List Char) (i : Nat) :
    sliceList n i n.length = n.drop i := by
  unfold sliceList
  have hl : (n.drop i).length = n.length - i := List.length_drop i n
  rw [← hl]
  exact List.take_length _

theorem sliceNe (n : List Char) (i j : Nat) (hij : i < j) (hin : i < n.length) :
    sliceList n i j ≠ [] := by
  unfold sliceList
  intro h
  have hlen : ((n.drop i).take (j - i)).length = 0 := by
    rw [h]
    rfl
  rw [List.length_take, List.length_drop] at hlen
  omega

theorem sliceNoSpace (n : List Char) (i j : Nat) (_hj : j ≤ n.length)
    (hns : ∀ k, i ≤ k → k < j → ¬ n[k]? = some ' ') :
    ' ' ∉ sliceList n i j := by
  intro hmem
  unfold sliceList at hmem
  rcases List.mem_iff_getElem?.mp hmem with ⟨m, hm⟩
  have hmlen : m < ((n.drop i).take (j - i)).length := by
    by_contra hge
    rw [List.getElem?_eq_none (by omega)] at hm
    cases hm
  rw [List.length_take, List.length_drop] at hmlen
  have hmj : m < j - i := by omega
  have h1 : ((n.drop i).take (j - i))[m]? = (n.drop i)[m]? := by
    rw [List.getElem?_take, if_pos hmj]
  rw [h1, List.getElem?_drop] at hm
  exact hns (i + m) (by omega) (by omega) hm

/-! ## The extracted phrase is a whitespace-delimited token -/

theorem extractPhrase_spec (n kw : List Char) (index : Nat)
    (hkw : kw ≠ []) (hsp : ∀ c ∈ kw, c ≠ ' ')
    (hocc : kw.isPrefixOf (n.drop index) = true) :
    ∃ i j, i ≤ index ∧ index + kw.length ≤ j ∧ j ≤ n.length ∧
      extractPhrase n kw index = sliceList n i j ∧
      (i = 0 ∨ n[i - 1]? = some ' ') ∧
      (j = n.length ∨ n[j]? = some ' ') ∧
      (∀ k, i ≤ k → k < j → ¬ n[k]? = some ' ') ∧
      ((∀ k, index + kw.length ≤ k → ¬ n[k]? = some ' ') → j = n.length) := by
  have hkwlen : 0 < kw.length := List.length_pos.mpr hkw
  have hlen1 : kw.length ≤ n.length - index := by
    have hsl := startsLength kw (n.drop index) hocc
    rwa [List.length_drop] at hsl
  have hidxlt : index < n.length := by omega
  have hidxval : n[index]? = kw[0]? := by
    have hge := startsGetEq kw (n.drop index) hocc 0 hkwlen
    rwa [List.getElem?_drop, Nat.add_zero] at hge
  have hidxne : ¬ n[index]? = some ' ' := by
    rw [hidxval]
    cases kw with
    | nil => exact absurd rfl hkw
    | cons c0 kwt =>
      intro hc
      rw [List.getElem?_cons_zero] at hc
      exact hsp c0 (by simp) (Option.some.inj hc)
  have hmid : ∀ k, index ≤ k → k < index + kw.length → ¬ n[k]? = some ' ' := by
    intro k hk1 hk2 hks
    have hm : k - index < kw.length := by omega
    have hge := startsGetEq kw (n.drop index) hocc (k - index) hm
    rw [List.getElem?_drop] at hge
    have he : index + (k - index) = k := by omega
    rw [he] at hge
    rw [hge] at hks
    exact hsp ' ' (List.mem_iff_getElem?.mpr ⟨k - index, hks⟩) rfl
  have hstart : ∃ i, i ≤ index ∧
      (match lastSpaceLe n index with | some j0 => j0 + 1 | none => 0) = i ∧
      (i = 0 ∨ n[i - 1]? = some ' ') ∧
      (∀ k, i ≤ k → k ≤ index → ¬ n[k]? = some ' ') := by
    cases hls : lastSpaceLe n index with
    | none =>
      exact ⟨0, by omega, rfl, Or.inl rfl,
        fun k _ hk2 => lastSpaceLe_none n index hls k hk2⟩
    | some j0 =>
      rcases lastSpaceLe_mem n index j0 hls with ⟨hj0sp, hj0le⟩
      have hj0ne : j0 ≠ index := by
        intro he
        rw [he] at hj0sp
        exact hidxne hj0sp
      refine ⟨j0 + 1, by omega, rfl, Or.inr (by simpa using hj0sp), ?_⟩
      intro k hk1 hk2
      exact lastSpaceLe_max n index j0 hls k (by omega) hk2
  rcases hstart with ⟨i, hiIdx, hiDef, hiBound, hiNoSp⟩
  have hphp : extractPhrase n kw index =
      (match jsIndexOfFrom n [' '] (index + kw.length) with
       | some e => if 0 < e then jsSubstring n i e else n.drop i
       | none => n.drop i) := by
    show (match jsIndexOfFrom n [' '] (index + kw.length) with
       | some e =>
           if 0 < e then
             jsSubstring n
               (match lastSpaceLe n index with | some j0 => j0 + 1 | none => 0) e
           else n.drop (match lastSpaceLe n index with | some j0 => j0 + 1 | none => 0)
       | none =>
           n.drop (match lastSpaceLe n index with | some j0 => j0 + 1 | none => 0)) = _
    rw [hiDef]
  cases hstop : jsIndexOfFrom n [' '] (index + kw.length) with
  | none =>
    rw [hstop] at hphp
    have hphp2 : extractPhrase n kw index = n.drop i := hphp
    have hnos : ∀ k, index + kw.length ≤ k → ¬ n[k]? = some ' ' :=
      spaceFrom_none n (index + kw.length) hstop
    refine ⟨i, n.length, hiIdx, by omega, le_refl _, ?_, hiBound, Or.inl rfl, ?_,
      fun _ => rfl⟩
    · rw [hphp2, sliceToEnd]
    · intro k hk1 hk2
      by_cases hk : k ≤ index
      · exact hiNoSp k hk1 hk
      · by_cases hk' : k < index + kw.length
        · exact hmid k (by omega) hk'
        · exact hnos k (by omega)
  | some e =>
    rw [hstop] at hphp
    have hphp2 : extractPhrase n kw index
        = if 0 < e then jsSubstring n i e else n.drop i := hphp
    rcases spaceFrom_mem n (index + kw.length) e hstop with ⟨hse, hesp, hmin⟩
    have hepos : 0 < e := by omega
    have helen : e < n.length := by
      by_contra hge
      rw [List.getElem?_eq_none (by omega)] at hesp
      cases hesp
    rw [if_pos hepos] at hphp2
    have hsub : jsSubstring n i e = sliceList n i e := by
      unfold jsSubstring
      have h1 : min i e = i := by omega
      have h2 : max i e = e := by omega
      rw [h1, h2]
    refine ⟨i, e, hiIdx, hse, by omega, ?_, hiBound, Or.inr hesp, ?_, ?_⟩
    · rw [hphp2, hsub]
    · intro k hk1 hk2
      by_cases hk : k ≤ index
      · exact hiNoSp k hk1 hk
      · by_cases hk' : k < index + kw.length
        · exact hmid k (by omega) hk'
        · exact hmin k (by omega) hk2
    · intro hall
      exact absurd hesp (hall e hse)

theorem extractBenefitGo_spec (n : List Char) (kws : List (List Char))
    (hprops : ∀ kw ∈ kws, kw ≠ [] ∧ ∀ c ∈ kw, c ≠ ' ') :
    extractBenefitGo n kws = [] ∨ SpaceToken n (extractBenefitGo n kws) := by
  induction kws with
  | nil => exact Or.inl rfl
  | cons kw rest ih =>
    cases hidx : jsIndexOf n kw with
    | none =>
      have hgo : extractBenefitGo n (kw :: rest) = extractBenefitGo n rest := by
        show (match jsIndexOf n kw with
              | some index => extractPhrase n kw index
              | none => extractBenefitGo n rest) = extractBenefitGo n rest
        rw [hidx]
      rw [hgo]
      exact ih (fun k hk => hprops k (by simp [hk]))
    | some index =>
      have hgo : extractBenefitGo n (kw :: rest) = extractPhrase n kw index := by
        show (match jsIndexOf n kw with
              | some idx => extractPhrase n kw idx
              | none => extractBenefitGo n rest) = extractPhrase n kw index
        rw [hidx]
      rcases hprops kw (by simp) with ⟨hne, hnsp⟩
      have hocc : kw.isPrefixOf (n.drop index) = true := idxOfAux_starts kw n index hidx
      rcases extractPhrase_spec n kw index hne hnsp hocc with
        ⟨i, j, hiIdx, hjIdx, hjn, heq, hb1, hb2, hns, _⟩
      right
      rw [hgo, heq]
      refine ⟨i, j, ?_, hjn, rfl, hb1, hb2, hns⟩
      have hkwlen : 0 < kw.length := List.length_pos.mpr hne
      omega

/-! ## C10: the benefit guess is at most one token -/

/-- C10: for every input text the benefit guess is either empty or a single
whitespace-delimited token of the normalized text; in particular it never
contains a space, so it can never be a multi-word phrase. -/
theorem c10_benefit_single_token (t : List Char) :
    (parseReferral t).benefit = [] ∨
      (SpaceToken (normalizeText t) ((parseReferral t).benefit) ∧
        ' ' ∉ (parseReferral t).benefit) := by
  have hprops : ∀ kw ∈ benefitKeywords, kw ≠ [] ∧ ∀ c ∈ kw, c ≠ ' ' := by decide
  have hben : (parseReferral t).benefit
      = extractBenefitGo (normalizeText t) benefitKeywords := rfl
  rcases extractBenefitGo_spec (normalizeText t) benefitKeywords hprops with h | h
  · left
    rw [hben, h]
  · right
    rw [hben]
    refine ⟨h, ?_⟩
    rcases h with ⟨i, j, hij, hjn, heq, _, _, hns⟩
    rw [heq]
    exact sliceNoSpace _ i j hjn hns

/-- Witness instantiation for C10 at a concrete referral text. -/
theorem c10_witness :
    (parseReferral "idz na rehabilitacja".data).benefit = [] ∨
      (SpaceToken (normalizeText "idz na rehabilitacja".data)
          ((parseReferral "idz na rehabilitacja".data).benefit) ∧
        ' ' ∉ (parseReferral "idz na rehabilitacja".data).benefit) :=
  c10_benefit_single_token "idz na rehabilitacja".data

/-! ## C5: which trigger wins -/

theorem extractBenefitGo_of_find (n : List Char) (kws : List (List Char))
    (kw : List Char)
    (h : kws.find? (fun k => (jsIndexOf n k).isSome) = some kw) :
    ∃ index, jsIndexOf n kw = some index ∧
      extractBenefitGo n kws = extractPhrase n kw index := by
  induction kws with
  | nil => cases h
  | cons k rest ih =>
    have h' : (match ((jsIndexOf n k).isSome : Bool) with
               | true => some k
               | false => List.find? (fun k2 => (jsIndexOf n k2).isSome) rest)
        = some kw := h
    by_cases hk : ((jsIndexOf n k).isSome : Bool) = true
    · rw [hk] at h'
      have hkkw : some k = some kw := h'
      cases hkkw
      rcases Option.isSome_iff_exists.mp hk with ⟨index, hidx⟩
      refine ⟨index, hidx, ?_⟩
      show (match jsIndexOf n kw with
            | some idx => extractPhrase n kw idx
            | none => extractBenefitGo n rest) = extractPhrase n kw index
      rw [hidx]
    · rw [Bool.eq_false_iff.mpr hk] at h'
      have hrest : List.find? (fun k2 => (jsIndexOf n k2).isSome) rest = some kw := h'
      rcases ih hrest with ⟨index, hidx, hgo⟩
      refine ⟨index, hidx, ?_⟩
      have hnone : jsIndexOf n k = none := by
        rcases ho : jsIndexOf n k with _ | a
        · rfl
        · rw [ho] at hk
          exact absurd rfl hk
      show (match jsIndexOf n k with
            | some idx => extractPhrase n k idx
            | none => extractBenefitGo n rest) = extractPhrase n kw index
      rw [hnone]
      exact hgo

/-- C5 (amended): the winning trigger is the first one, in the fixed
trigger-list order, that occurs anywhere in the normalized text; the
extracted phrase is the whitespace-delimited slice around that trigger's
first occurrence, and when no space follows the occurrence the right
boundary defaults to the end of the string. -/
theorem c5_trigger_list_order (t kw : List Char)
    (hfind : benefitKeywords.find?
        (fun k => (jsIndexOf (normalizeText t) k).isSome) = some kw) :
    ∃ index i j,
      jsIndexOf (normalizeText t) kw = some index ∧
      (∀ k, k < index → kw.isPrefixOf ((normalizeText t).drop k) = false) ∧
      (parseReferral t).benefit = sliceList (normalizeText t) i j ∧
      (parseReferral t).benefit ≠ [] ∧
      i ≤ index ∧ index + kw.length ≤ j ∧ j ≤ (normalizeText t).length ∧
      (i = 0 ∨ (normalizeText t)[i - 1]? = some ' ') ∧
      (j = (normalizeText t).length ∨ (normalizeText t)[j]? = some ' ') ∧
      (∀ k, i ≤ k → k < j → ¬ (normalizeText t)[k]? = some ' ') ∧
      ((∀ k, index + kw.length ≤ k → ¬ (normalizeText t)[k]? = some ' ') →
        j = (normalizeText t).length) := by
  have hprops : ∀ k ∈ benefitKeywords, k ≠ [] ∧ ∀ c ∈ k, c ≠ ' ' := by decide
  rcases extractBenefitGo_of_find (normalizeText t) benefitKeywords kw hfind with
    ⟨index, hidx, hgo⟩
  rcases hprops kw (List.mem_of_find?_eq_some hfind) with ⟨hne, hnsp⟩
  have hocc := idxOfAux_starts kw (normalizeText t) index hidx
  rcases extractPhrase_spec (normalizeText t) kw index hne hnsp hocc with
    ⟨i, j, hiIdx, hjIdx, hjn, heq, hb1, hb2, hns, hend⟩
  have hben : (parseReferral t).benefit = extractPhrase (normalizeText t) kw index := hgo
  refine ⟨index, i, j, hidx, idxOfAux_min kw (normalizeText t) index hidx, ?_, ?_,
    hiIdx, hjIdx, hjn, hb1, hb2, hns, hend⟩
  · rw [hben, heq]
  · rw [hben, heq]
    have hkwlen : 0 < kw.length := List.length_pos.mpr hne
    have hlen1 : kw.length ≤ (normalizeText t).length - index := by
      have hsl := startsLength kw _ hocc
      rwa [List.length_drop] at hsl
    apply sliceNe
    · omega
    · omega

/-- Witness for C5 at a text containing a trigger. -/
theorem c5_witness :
    benefitKeywords.find?
        (fun k => (jsIndexOf (normalizeText "idz do poradnia kardiologiczna".data) k).isSome)
      = some "poradnia".data ∧
      ∃ index i j,
        jsIndexOf (normalizeText "idz do poradnia kardiologiczna".data) "poradnia".data
          = some index ∧
        (∀ k, k < index →
          "poradnia".data.isPrefixOf
            ((normalizeText "idz do poradnia kardiologiczna".data).drop k) = false) ∧
        (parseReferral "idz do poradnia kardiologiczna".data).benefit
          = sliceList (normalizeText "idz do poradnia kardiologiczna".data) i j ∧
        (parseReferral "idz do poradnia kardiologiczna".data).benefit ≠ [] ∧
        i ≤ index ∧ index + "poradnia".data.length ≤ j ∧
        j ≤ (normalizeText "idz do poradnia kardiologiczna".data).length ∧
        (i = 0 ∨ (normalizeText "idz do poradnia kardiologiczna".data)[i - 1]?
          = some ' ') ∧
        (j = (normalizeText "idz do poradnia kardiologiczna".data).length ∨
          (normalizeText "idz do poradnia kardiologiczna".data)[j]? = some ' ') ∧
        (∀ k, i ≤ k → k < j →
          ¬ (normalizeText "idz do poradnia kardiologiczna".data)[k]? = some ' ') ∧
        ((∀ k, index + "poradnia".data.length ≤ k →
            ¬ (normalizeText "idz do poradnia kardiologiczna".data)[k]? = some ' ') →
          j = (normalizeText "idz do poradnia kardiologiczna".data).length) :=
  ⟨by decide,
    c5_trigger_list_order "idz do poradnia kardiologiczna".data "poradnia".data
      (by decide)⟩

end NFZ
